import Mathlib

/-!
Solar panel configuration optimizer — formal model.

Shallow embedding of `src/main.py` (panupong-develop/Solar-Panel-Calculation).
Python integers are modelled as `Int` for electrical quantities and `Nat` for
counts and chunk sizes; Python code that can raise (`panels[0]` on an empty
list, `range(0, n, 0)` with step 0) is modelled with `Option`.
-/

/-- Python `class Panel`: immutable value with a voltage and a current. -/
structure Panel where
  voltage : Int
  current : Int
deriving DecidableEq, Repr

/-- The `Panel.total_power` property: `voltage * current`. -/
def Panel.total_power (p : Panel) : Int := p.voltage * p.current

/-- Type alias `MergedPanel = Panel`. -/
abbrev MergedPanel := Panel

/-- Type alias `PanelGroup = list[Panel]`. -/
abbrev PanelGroup := List Panel

/-- Python `MergeMethod = Literal["series_first", "parallel_first"]`. -/
inductive MergeMethod where
  | series_first
  | parallel_first
deriving DecidableEq, Repr

/-- Python `class Output(Panel)`: a Panel plus series/parallel counts and the method. -/
structure Output where
  voltage : Int
  current : Int
  num_series : Nat
  num_parallel : Nat
  method : MergeMethod
deriving DecidableEq, Repr

/-- Like `Panel`, an `Output` derives `total_power` from voltage and current. -/
def Output.total_power (o : Output) : Int := o.voltage * o.current

/-- Python `class Optimized(Output)`: an Output plus the power shortfall. -/
structure Optimized where
  voltage : Int
  current : Int
  num_series : Nat
  num_parallel : Nat
  method : MergeMethod
  loss_power : Int
deriving DecidableEq, Repr

/-- Like `Panel`, an `Optimized` derives `total_power` from voltage and current. -/
def Optimized.total_power (o : Optimized) : Int := o.voltage * o.current

/-- The chunking loop of `group_panels`, fuelled so that it is structurally
recursive (each iteration consumes at least one panel, so `panels.length`
fuel always suffices). -/
def chunkListFuel : Nat → List Panel → Nat → List PanelGroup
  | 0, _, _ => []
  | fuel + 1, panels, chunk_size =>
    if panels = [] ∨ chunk_size = 0 then []
    else panels.take chunk_size ::
      chunkListFuel fuel (panels.drop chunk_size) chunk_size

/-- The chunking loop of `group_panels`:
`[panels[i : i + chunk_size] for i in range(0, len(panels), chunk_size)]`
for a positive step `chunk_size`. -/
def chunkList (panels : List Panel) (chunk_size : Nat) : List PanelGroup :=
  chunkListFuel panels.length panels chunk_size

/-- Embedding of `def group_panels(panels, chunk_size)`: consecutive slices of size
`chunk_size`.  A zero `chunk_size` makes Python's `range` raise `ValueError`,
modelled as `none`. -/
def group_panels (panels : List Panel) (chunk_size : Nat) : Option (List PanelGroup) :=
  if chunk_size = 0 then none
  else some (chunkList panels chunk_size)

/-- Embedding of `def series_panels(panels)`: voltage is the sum of the voltages, current is
taken from the first panel (`panels[0]` raises on an empty list: `none`). -/
def series_panels : List Panel → Option MergedPanel
  | [] => none
  | p :: ps => some ⟨((p :: ps).map Panel.voltage).sum, p.current⟩

/-- Embedding of `def parallel_panels(panels)`: current is the sum of the currents, voltage
is taken from the first panel (`panels[0]` raises on an empty list: `none`). -/
def parallel_panels : List Panel → Option MergedPanel
  | [] => none
  | p :: ps => some ⟨p.voltage, ((p :: ps).map Panel.current).sum⟩

/-- A Python list comprehension `[f(x) for x in l]` over a fallible `f`:
the whole comprehension fails as soon as one element fails. -/
def mapOpt {α β : Type} (f : α → Option β) : List α → Option (List β)
  | [] => some []
  | a :: l =>
    match f a, mapOpt f l with
    | some b, some bs => some (b :: bs)
    | _, _ => none

/-- Embedding of `def evaluate(panels, chunk_size, method)`: group the panels, merge inside
each group with the first-level operator, then merge the group equivalents
with the second-level operator. -/
def evaluate (panels : List Panel) (chunk_size : Nat) (method : MergeMethod) :
    Option Output :=
  match group_panels panels chunk_size with
  | none => none
  | some groups =>
    match method with
    | .series_first =>
      match mapOpt series_panels groups with
      | none => none
      | some series =>
        match parallel_panels series with
        | none => none
        | some result =>
          some ⟨result.voltage, result.current, chunk_size, series.length,
                .series_first⟩
    | .parallel_first =>
      match mapOpt parallel_panels groups with
      | none => none
      | some parallels =>
        match series_panels parallels with
        | none => none
        | some result =>
          some ⟨result.voltage, result.current, parallels.length, chunk_size,
                .parallel_first⟩

/-- The `(group_size, method)` pairs `optimize` enumerates, in loop order:
`for group_size in range(1, len(panels) + 1): for method in ("series_first",
"parallel_first")`. -/
def candidates (panels : List Panel) : List (Nat × MergeMethod) :=
  (List.range panels.length).flatMap
    (fun k => [(k + 1, MergeMethod.series_first), (k + 1, MergeMethod.parallel_first)])

/-- One iteration of the search loop in `optimize`: keep the candidate if it is
feasible (`voltage <= max_voltage and current <= max_current`) and strictly
beats the best power so far.  The state is `(best_config, best_power)`;
`best_method` of the source always equals `best_config.method` because both
are assigned together and `evaluate` stores the loop's `method` in the Output.
`evaluate` never fails for the chunk sizes `optimize` enumerates (see
`evaluate_isSome`); the `none` branch only makes the match total. -/
def considerCandidate (max_voltage max_current : Int) (panels : List Panel)
    (st : Option Output × Int) (cand : Nat × MergeMethod) : Option Output × Int :=
  match evaluate panels cand.1 cand.2 with
  | none => st
  | some output =>
    if output.voltage ≤ max_voltage ∧ output.current ≤ max_current then
      if st.2 < output.total_power then (some output, output.total_power) else st
    else st

/-- Embedding of `def optimize(panels, max_voltage, max_current, max_power)`: brute-force
search over all `(group_size, method)` pairs, starting from
`best_config = None, best_power = 0`; returns `None` when no candidate was
kept, otherwise the best Output extended with
`loss_power = max_power - best.total_power`. -/
def optimize (panels : List Panel) (max_voltage max_current max_power : Int) :
    Option Optimized :=
  let st := (candidates panels).foldl
    (considerCandidate max_voltage max_current panels) (none, 0)
  match st.1 with
  | none => none
  | some best =>
    some ⟨best.voltage, best.current, best.num_series, best.num_parallel,
          best.method, max_power - best.total_power⟩

/-! ## Lemmas about the chunking loop -/

theorem chunkListFuel_nil (fuel c : Nat) : chunkListFuel fuel [] c = [] := by
  cases fuel with
  | zero => rfl
  | succ fuel => simp [chunkListFuel]

theorem chunkListFuel_congr :
    ∀ (f1 : Nat) (l : List Panel) (c f2 : Nat), l.length ≤ f1 → l.length ≤ f2 →
      chunkListFuel f1 l c = chunkListFuel f2 l c := by
  intro f1
  induction f1 with
  | zero =>
    intro l c f2 h1 _
    have : l = [] := List.length_eq_zero.mp (Nat.le_zero.mp h1)
    subst this
    rw [chunkListFuel_nil, chunkListFuel_nil]
  | succ f1 ih =>
    intro l c f2 h1 h2
    by_cases hl : l = []
    · subst hl
      rw [chunkListFuel_nil, chunkListFuel_nil]
    · by_cases hc : c = 0
      · subst hc
        cases f2 with
        | zero =>
          have : l = [] := List.length_eq_zero.mp (Nat.le_zero.mp h2)
          exact absurd this hl
        | succ f2 => simp [chunkListFuel]
      · cases f2 with
        | zero =>
          have : l = [] := List.length_eq_zero.mp (Nat.le_zero.mp h2)
          exact absurd this hl
        | succ f2 =>
          have hlen : 0 < l.length := List.length_pos.mpr hl
          have hd1 : (l.drop c).length ≤ f1 := by
            rw [List.length_drop]
            omega
          have hd2 : (l.drop c).length ≤ f2 := by
            rw [List.length_drop]
            omega
          simp only [chunkListFuel, hl, hc, or_self, if_false, ite_false]
          rw [ih _ c f2 hd1 hd2]

theorem chunkList_nil (c : Nat) : chunkList [] c = [] := rfl

theorem chunkList_cons (panels : List Panel) (c : Nat) (hP : panels ≠ [])
    (hc : c ≠ 0) :
    chunkList panels c = panels.take c :: chunkList (panels.drop c) c := by
  unfold chunkList
  have hlen : 0 < panels.length := List.length_pos.mpr hP
  rcases hn : panels.length with _ | n
  · omega
  · show chunkListFuel (n + 1) panels c = _
    simp only [chunkListFuel, hP, hc, or_self, if_false]
    have hd : (panels.drop c).length ≤ n := by
      rw [List.length_drop]
      omega
    rw [chunkListFuel_congr n (panels.drop c) c (panels.drop c).length hd le_rfl]

theorem chunkList_eq_nil_iff (panels : List Panel) (c : Nat) (hc : c ≠ 0) :
    chunkList panels c = [] ↔ panels = [] := by
  constructor
  · intro h
    by_contra hP
    rw [chunkList_cons panels c hP hc] at h
    exact List.cons_ne_nil _ _ h
  · intro h; subst h; exact chunkList_nil c

theorem chunkList_flatten (c : Nat) (hc : c ≠ 0) (panels : List Panel) :
    (chunkList panels c).flatten = panels := by
  have key : ∀ n (l : List Panel), l.length ≤ n → (chunkList l c).flatten = l := by
    intro n
    induction n with
    | zero =>
      intro l hl
      have : l = [] := List.length_eq_zero.mp (Nat.le_zero.mp hl)
      subst this
      simp [chunkList_nil]
    | succ n ih =>
      intro l hl
      by_cases hP : l = []
      · subst hP; simp [chunkList_nil]
      · rw [chunkList_cons l c hP hc]
        have hlen : 0 < l.length := List.length_pos.mpr hP
        have hd : (l.drop c).length ≤ n := by
          rw [List.length_drop]; omega
        rw [List.flatten_cons, ih _ hd, List.take_append_drop]
  exact key panels.length panels le_rfl

theorem chunkList_forall (c : Nat) (hc : c ≠ 0) (panels : List Panel) :
    ∀ g ∈ chunkList panels c, g ≠ [] ∧ g.length ≤ c ∧ ∀ p ∈ g, p ∈ panels := by
  have key : ∀ n (l : List Panel), l.length ≤ n →
      ∀ g ∈ chunkList l c, g ≠ [] ∧ g.length ≤ c ∧ ∀ p ∈ g, p ∈ l := by
    intro n
    induction n with
    | zero =>
      intro l hl
      have : l = [] := List.length_eq_zero.mp (Nat.le_zero.mp hl)
      subst this
      simp [chunkList_nil]
    | succ n ih =>
      intro l hl g hg
      by_cases hP : l = []
      · subst hP; simp [chunkList_nil] at hg
      · rw [chunkList_cons l c hP hc] at hg
        have hlen : 0 < l.length := List.length_pos.mpr hP
        rcases List.mem_cons.mp hg with hg | hg
        · subst hg
          refine ⟨?_, ?_, ?_⟩
          · intro htake
            have : l.take c = [] ↔ c = 0 ∨ l = [] := List.take_eq_nil_iff
            rcases this.mp htake with h | h
            · exact hc h
            · exact hP h
          · exact (List.length_take c l) ▸ Nat.min_le_left c l.length
          · intro p hp; exact List.mem_of_mem_take hp
        · have hd : (l.drop c).length ≤ n := by
            rw [List.length_drop]; omega
          rcases ih _ hd g hg with ⟨h1, h2, h3⟩
          exact ⟨h1, h2, fun p hp => List.mem_of_mem_drop (h3 p hp)⟩
  exact key panels.length panels le_rfl

theorem chunkList_dropLast_length (c : Nat) (hc : c ≠ 0) (panels : List Panel) :
    ∀ g ∈ (chunkList panels c).dropLast, g.length = c := by
  have key : ∀ n (l : List Panel), l.length ≤ n →
      ∀ g ∈ (chunkList l c).dropLast, g.length = c := by
    intro n
    induction n with
    | zero =>
      intro l hl
      have : l = [] := List.length_eq_zero.mp (Nat.le_zero.mp hl)
      subst this
      simp [chunkList_nil]
    | succ n ih =>
      intro l hl g hg
      by_cases hP : l = []
      · subst hP; simp [chunkList_nil] at hg
      · rw [chunkList_cons l c hP hc] at hg
        have hlen : 0 < l.length := List.length_pos.mpr hP
        by_cases hrest : chunkList (l.drop c) c = []
        · rw [hrest] at hg
          simp at hg
        · rw [List.dropLast_cons_of_ne_nil hrest] at hg
          rcases List.mem_cons.mp hg with hg | hg
          · subst hg
            have hdrop : l.drop c ≠ [] :=
              fun h => hrest (by rw [h]; exact chunkList_nil c)
            have : c < l.length := by
              by_contra hcl
              exact hdrop (List.drop_eq_nil_of_le (by omega))
            rw [List.length_take]
            omega
          · have hd : (l.drop c).length ≤ n := by
              rw [List.length_drop]; omega
            exact ih _ hd g hg
  exact key panels.length panels le_rfl

theorem chunkList_of_le (panels : List Panel) (c : Nat) (hP : panels ≠ [])
    (hc : c ≠ 0) (h : panels.length ≤ c) : chunkList panels c = [panels] := by
  rw [chunkList_cons panels c hP hc, List.take_of_length_le h,
      List.drop_eq_nil_of_le h, chunkList_nil]

theorem chunkList_length_dvd (c : Nat) (hc : c ≠ 0) :
    ∀ (k : Nat) (panels : List Panel), panels.length = c * k →
      (chunkList panels c).length = k := by
  intro k
  induction k with
  | zero =>
    intro panels h
    have : panels = [] := List.length_eq_zero.mp (by omega)
    subst this
    simp [chunkList_nil]
  | succ k ih =>
    intro panels h
    have hP : panels ≠ [] := by
      intro he
      subst he
      simp at h
      omega
    rw [chunkList_cons panels c hP hc]
    have hd : (panels.drop c).length = c * k := by
      rw [List.length_drop, h]
      have : 0 < c := Nat.pos_of_ne_zero hc
      ring_nf
      omega
    rw [List.length_cons, ih _ hd]

/-! ## Lemmas about the merge operators and the fallible comprehension -/

theorem mapOpt_eq_some_iff {α β : Type} (f : α → Option β) :
    ∀ (l : List α) (l' : List β),
      mapOpt f l = some l' ↔ List.Forall₂ (fun a b => f a = some b) l l' := by
  intro l
  induction l with
  | nil =>
    intro l'
    constructor
    · intro h
      simp only [mapOpt, Option.some.injEq] at h
      subst h
      exact List.Forall₂.nil
    · intro h
      cases h
      rfl
  | cons a l ih =>
    intro l'
    constructor
    · intro h
      rcases ha : f a with _ | b
      · simp [mapOpt, ha] at h
      · rcases hl : mapOpt f l with _ | bs
        · simp [mapOpt, ha, hl] at h
        · simp only [mapOpt, ha, hl, Option.some.injEq] at h
          subst h
          exact List.Forall₂.cons ha ((ih bs).mp hl)
    · intro h
      cases h with
      | cons hab htail =>
        simp [mapOpt, hab, (ih _).mpr htail]

theorem mapOpt_isSome {α β : Type} (f : α → Option β) :
    ∀ l : List α, (∀ a ∈ l, ∃ b, f a = some b) → ∃ l', mapOpt f l = some l' := by
  intro l
  induction l with
  | nil => intro _; exact ⟨[], rfl⟩
  | cons a l ih =>
    intro h
    rcases h a (List.mem_cons_self a l) with ⟨b, hb⟩
    rcases ih (fun x hx => h x (List.mem_cons_of_mem a hx)) with ⟨bs, hbs⟩
    exact ⟨b :: bs, by simp [mapOpt, hb, hbs]⟩

theorem mapOpt_length {α β : Type} (f : α → Option β) (l : List α) (l' : List β)
    (h : mapOpt f l = some l') : l'.length = l.length :=
  (((mapOpt_eq_some_iff f l l').mp h).length_eq).symm

theorem series_panels_isSome (l : List Panel) (h : l ≠ []) :
    ∃ m, series_panels l = some m := by
  cases l with
  | nil => exact absurd rfl h
  | cons p ps => exact ⟨_, rfl⟩

theorem parallel_panels_isSome (l : List Panel) (h : l ≠ []) :
    ∃ m, parallel_panels l = some m := by
  cases l with
  | nil => exact absurd rfl h
  | cons p ps => exact ⟨_, rfl⟩

theorem series_panels_pos (l : List Panel)
    (hpos : ∀ p ∈ l, 0 < p.voltage ∧ 0 < p.current) (m : MergedPanel)
    (hm : series_panels l = some m) : 0 < m.voltage ∧ 0 < m.current := by
  cases l with
  | nil => simp [series_panels] at hm
  | cons p ps =>
    simp only [series_panels, Option.some.injEq] at hm
    subst hm
    constructor
    · exact List.sum_pos _
        (by
          intro x hx
          rcases List.mem_map.mp hx with ⟨q, hq, hqx⟩
          exact hqx ▸ (hpos q hq).1)
        (by simp)
    · exact (hpos p (List.mem_cons_self p ps)).2

theorem parallel_panels_pos (l : List Panel)
    (hpos : ∀ p ∈ l, 0 < p.voltage ∧ 0 < p.current) (m : MergedPanel)
    (hm : parallel_panels l = some m) : 0 < m.voltage ∧ 0 < m.current := by
  cases l with
  | nil => simp [parallel_panels] at hm
  | cons p ps =>
    simp only [parallel_panels, Option.some.injEq] at hm
    subst hm
    constructor
    · exact (hpos p (List.mem_cons_self p ps)).1
    · exact List.sum_pos _
        (by
          intro x hx
          rcases List.mem_map.mp hx with ⟨q, hq, hqx⟩
          exact hqx ▸ (hpos q hq).2)
        (by simp)

theorem forall₂_mem_right {α β : Type} {R : α → β → Prop} :
    ∀ {l : List α} {l' : List β}, List.Forall₂ R l l' → ∀ b ∈ l', ∃ a ∈ l, R a b := by
  intro l l' h
  induction h with
  | nil => simp
  | cons hab htail ih =>
    intro b hb
    rcases List.mem_cons.mp hb with hb | hb
    · subst hb
      exact ⟨_, List.mem_cons_self _ _, hab⟩
    · rcases ih b hb with ⟨a, ha, hr⟩
      exact ⟨a, List.mem_cons_of_mem _ ha, hr⟩

/-! ## Lemmas about the evaluator -/

theorem evaluate_series_spec (panels : List Panel) (c : Nat) (hP : panels ≠ [])
    (hc : c ≠ 0) :
    ∃ series result,
      mapOpt series_panels (chunkList panels c) = some series ∧
      series.length = (chunkList panels c).length ∧
      parallel_panels series = some result ∧
      evaluate panels c .series_first =
        some ⟨result.voltage, result.current, c, series.length, .series_first⟩ := by
  have hne : ∀ g ∈ chunkList panels c, g ≠ [] :=
    fun g hg => (chunkList_forall c hc panels g hg).1
  rcases mapOpt_isSome series_panels (chunkList panels c)
      (fun g hg => series_panels_isSome g (hne g hg)) with ⟨series, hseries⟩
  have hlen : series.length = (chunkList panels c).length :=
    mapOpt_length _ _ _ hseries
  have hsne : series ≠ [] := by
    intro h
    have : (chunkList panels c).length = 0 := by
      rw [← hlen, h]; rfl
    exact hP ((chunkList_eq_nil_iff panels c hc).mp (List.length_eq_zero.mp this))
  rcases parallel_panels_isSome series hsne with ⟨result, hresult⟩
  refine ⟨series, result, hseries, hlen, hresult, ?_⟩
  simp [evaluate, group_panels, hc, hseries, hresult]

theorem evaluate_parallel_spec (panels : List Panel) (c : Nat) (hP : panels ≠ [])
    (hc : c ≠ 0) :
    ∃ parallels result,
      mapOpt parallel_panels (chunkList panels c) = some parallels ∧
      parallels.length = (chunkList panels c).length ∧
      series_panels parallels = some result ∧
      evaluate panels c .parallel_first =
        some ⟨result.voltage, result.current, parallels.length, c, .parallel_first⟩ := by
  have hne : ∀ g ∈ chunkList panels c, g ≠ [] :=
    fun g hg => (chunkList_forall c hc panels g hg).1
  rcases mapOpt_isSome parallel_panels (chunkList panels c)
      (fun g hg => parallel_panels_isSome g (hne g hg)) with ⟨parallels, hpar⟩
  have hlen : parallels.length = (chunkList panels c).length :=
    mapOpt_length _ _ _ hpar
  have hsne : parallels ≠ [] := by
    intro h
    have : (chunkList panels c).length = 0 := by
      rw [← hlen, h]; rfl
    exact hP ((chunkList_eq_nil_iff panels c hc).mp (List.length_eq_zero.mp this))
  rcases series_panels_isSome parallels hsne with ⟨result, hresult⟩
  refine ⟨parallels, result, hpar, hlen, hresult, ?_⟩
  simp [evaluate, group_panels, hc, hpar, hresult]

theorem evaluate_isSome (panels : List Panel) (c : Nat) (m : MergeMethod)
    (hP : panels ≠ []) (hc : c ≠ 0) : ∃ o, evaluate panels c m = some o := by
  cases m with
  | series_first =>
    rcases evaluate_series_spec panels c hP hc with ⟨_, _, _, _, _, h⟩
    exact ⟨_, h⟩
  | parallel_first =>
    rcases evaluate_parallel_spec panels c hP hc with ⟨_, _, _, _, _, h⟩
    exact ⟨_, h⟩

theorem evaluate_pos (panels : List Panel) (c : Nat) (m : MergeMethod)
    (hP : panels ≠ []) (hc : c ≠ 0)
    (hpos : ∀ p ∈ panels, 0 < p.voltage ∧ 0 < p.current) (o : Output)
    (ho : evaluate panels c m = some o) : 0 < o.voltage ∧ 0 < o.current := by
  have hgpos : ∀ g ∈ chunkList panels c, ∀ p ∈ g, 0 < p.voltage ∧ 0 < p.current :=
    fun g hg p hp => hpos p ((chunkList_forall c hc panels g hg).2.2 p hp)
  cases m with
  | series_first =>
    rcases evaluate_series_spec panels c hP hc with
      ⟨series, result, hseries, _, hresult, heval⟩
    rw [heval] at ho
    have hspos : ∀ x ∈ series, 0 < x.voltage ∧ 0 < x.current := by
      intro x hx
      rcases forall₂_mem_right ((mapOpt_eq_some_iff _ _ _).mp hseries) x hx with
        ⟨g, hg, hgx⟩
      exact series_panels_pos g (hgpos g hg) x hgx
    have := parallel_panels_pos series hspos result hresult
    cases ho
    exact this
  | parallel_first =>
    rcases evaluate_parallel_spec panels c hP hc with
      ⟨parallels, result, hpar, _, hresult, heval⟩
    rw [heval] at ho
    have hspos : ∀ x ∈ parallels, 0 < x.voltage ∧ 0 < x.current := by
      intro x hx
      rcases forall₂_mem_right ((mapOpt_eq_some_iff _ _ _).mp hpar) x hx with
        ⟨g, hg, hgx⟩
      exact parallel_panels_pos g (hgpos g hg) x hgx
    have := series_panels_pos parallels hspos result hresult
    cases ho
    exact this

/-! ## Lemmas about the search loop -/

theorem mem_candidates (panels : List Panel) (k : Nat) (m : MergeMethod) :
    (k, m) ∈ candidates panels ↔ 1 ≤ k ∧ k ≤ panels.length := by
  simp only [candidates, List.mem_flatMap, List.mem_range]
  constructor
  · rintro ⟨j, hj, hm⟩
    rcases List.mem_cons.mp hm with h | h
    · cases h; omega
    · rcases List.mem_cons.mp h with h | h
      · cases h; omega
      · simp at h
  · rintro ⟨h1, h2⟩
    refine ⟨k - 1, by omega, ?_⟩
    have hk : k - 1 + 1 = k := by omega
    cases m with
    | series_first => rw [hk]; exact List.mem_cons_self _ _
    | parallel_first => rw [hk]; exact List.mem_cons_of_mem _ (List.mem_cons_self _ _)

theorem consider_snd_mono (mv mc : Int) (panels : List Panel)
    (st : Option Output × Int) (cand : Nat × MergeMethod) :
    st.2 ≤ (considerCandidate mv mc panels st cand).2 := by
  unfold considerCandidate
  rcases evaluate panels cand.1 cand.2 with _ | o
  · exact le_rfl
  · by_cases hfeas : o.voltage ≤ mv ∧ o.current ≤ mc
    · by_cases hgt : st.2 < o.total_power
      · simp [hfeas, hgt]
        omega
      · simp [hfeas, hgt]
    · simp [hfeas]

theorem consider_le_snd (mv mc : Int) (panels : List Panel)
    (st : Option Output × Int) (cand : Nat × MergeMethod) (o : Output)
    (ho : evaluate panels cand.1 cand.2 = some o) (hv : o.voltage ≤ mv)
    (hc : o.current ≤ mc) :
    o.total_power ≤ (considerCandidate mv mc panels st cand).2 := by
  unfold considerCandidate
  rw [ho]
  by_cases hgt : st.2 < o.total_power
  · simp [hv, hc, hgt]
  · simp [hv, hc, hgt]
    omega

/-- Core characterization of the best-so-far search loop: either no candidate
ever beats the incoming state (and the state is returned unchanged, with every
feasible candidate's power bounded by the incoming best power), or the final
best is the first candidate in the list that attains the running maximum:
every feasible candidate strictly before it has strictly smaller power, and
every feasible candidate after it has power at most the winner's. -/
theorem foldl_consider_spec (mv mc : Int) (panels : List Panel) :
    ∀ (l : List (Nat × MergeMethod)) (st : Option Output × Int),
      (l.foldl (considerCandidate mv mc panels) st = st ∧
        ∀ c ∈ l, ∀ o, evaluate panels c.1 c.2 = some o →
          o.voltage ≤ mv → o.current ≤ mc → o.total_power ≤ st.2)
      ∨ (∃ l₁ c l₂ o, l = l₁ ++ c :: l₂ ∧
          evaluate panels c.1 c.2 = some o ∧
          o.voltage ≤ mv ∧ o.current ≤ mc ∧
          (l.foldl (considerCandidate mv mc panels) st).1 = some o ∧
          (l.foldl (considerCandidate mv mc panels) st).2 = o.total_power ∧
          st.2 < o.total_power ∧
          (∀ c' ∈ l₁, ∀ o', evaluate panels c'.1 c'.2 = some o' →
            o'.voltage ≤ mv → o'.current ≤ mc → o'.total_power < o.total_power) ∧
          (∀ c' ∈ l₂, ∀ o', evaluate panels c'.1 c'.2 = some o' →
            o'.voltage ≤ mv → o'.current ≤ mc → o'.total_power ≤ o.total_power)) := by
  intro l
  induction l with
  | nil =>
    intro st
    exact Or.inl ⟨rfl, by simp⟩
  | cons c l ih =>
    intro st
    have hfold : (c :: l).foldl (considerCandidate mv mc panels) st =
        l.foldl (considerCandidate mv mc panels) (considerCandidate mv mc panels st c) :=
      rfl
    rcases ih (considerCandidate mv mc panels st c) with
      ⟨heq, hall⟩ | ⟨l₁, c₀, l₂, o, hsplit, heval, hv, hcc, hbest, hpow, hlt, hbefore, hafter⟩
    · -- the tail never improved on the state after the head step
      rcases hev : evaluate panels c.1 c.2 with _ | oc
      · have hst : considerCandidate mv mc panels st c = st := by
          unfold considerCandidate
          rw [hev]
        refine Or.inl ⟨by rw [hfold, hst]; rw [hst] at heq; exact heq, ?_⟩
        intro c' hc' o' he' hv' hc''
        rcases List.mem_cons.mp hc' with hc' | hc'
        · subst hc'
          rw [hev] at he'
          exact absurd he' (by simp)
        · have := hall c' hc' o' he' hv' hc''
          rw [hst] at this
          exact this
      · by_cases hfeas : oc.voltage ≤ mv ∧ oc.current ≤ mc
        · by_cases hgt : st.2 < oc.total_power
          · have hst : considerCandidate mv mc panels st c =
                (some oc, oc.total_power) := by
              unfold considerCandidate
              rw [hev]
              simp [hfeas, hgt]
            refine Or.inr ⟨[], c, l, oc, rfl, hev, hfeas.1, hfeas.2, ?_, ?_, hgt, ?_, ?_⟩
            · rw [hfold, heq, hst]
            · rw [hfold, heq, hst]
            · simp
            · intro c' hc' o' he' hv' hc''
              have := hall c' hc' o' he' hv' hc''
              rw [hst] at this
              exact this
          · have hst : considerCandidate mv mc panels st c = st := by
              unfold considerCandidate
              rw [hev]
              simp [hfeas, hgt]
            refine Or.inl ⟨by rw [hfold, hst]; rw [hst] at heq; exact heq, ?_⟩
            intro c' hc' o' he' hv' hc''
            rcases List.mem_cons.mp hc' with hc' | hc'
            · subst hc'
              rw [hev] at he'
              cases he'
              omega
            · have := hall c' hc' o' he' hv' hc''
              rw [hst] at this
              exact this
        · have hst : considerCandidate mv mc panels st c = st := by
            unfold considerCandidate
            rw [hev]
            simp [hfeas]
          refine Or.inl ⟨by rw [hfold, hst]; rw [hst] at heq; exact heq, ?_⟩
          intro c' hc' o' he' hv' hc''
          rcases List.mem_cons.mp hc' with hc' | hc'
          · subst hc'
            rw [hev] at he'
            cases he'
            exact absurd ⟨hv', hc''⟩ hfeas
          · have := hall c' hc' o' he' hv' hc''
            rw [hst] at this
            exact this
    · -- the tail produced a winner; the head candidate moves into the prefix
      refine Or.inr ⟨c :: l₁, c₀, l₂, o, by rw [hsplit]; rfl, heval, hv, hcc,
        by rw [hfold]; exact hbest, by rw [hfold]; exact hpow, ?_, ?_, hafter⟩
      · exact lt_of_le_of_lt (consider_snd_mono mv mc panels st c) hlt
      · intro c' hc' o' he' hv' hc''
        rcases List.mem_cons.mp hc' with hc' | hc'
        · subst hc'
          exact lt_of_le_of_lt (consider_le_snd mv mc panels st c' o' he' hv' hc'') hlt
        · exact hbefore c' hc' o' he' hv' hc''

/-- Top-level characterization of `optimize`: either no feasible candidate has
positive power and the result is `none`, or the result is built from the first
candidate (in enumeration order) attaining the maximal feasible power. -/
theorem optimize_cases (panels : List Panel) (mv mc mp : Int) :
    (optimize panels mv mc mp = none ∧
      ∀ c ∈ candidates panels, ∀ o, evaluate panels c.1 c.2 = some o →
        o.voltage ≤ mv → o.current ≤ mc → o.total_power ≤ 0)
    ∨ (∃ l₁ c l₂ o, candidates panels = l₁ ++ c :: l₂ ∧
        evaluate panels c.1 c.2 = some o ∧
        o.voltage ≤ mv ∧ o.current ≤ mc ∧
        0 < o.total_power ∧
        optimize panels mv mc mp =
          some ⟨o.voltage, o.current, o.num_series, o.num_parallel, o.method,
                mp - o.total_power⟩ ∧
        (∀ c' ∈ l₁, ∀ o', evaluate panels c'.1 c'.2 = some o' →
          o'.voltage ≤ mv → o'.current ≤ mc → o'.total_power < o.total_power) ∧
        (∀ c' ∈ l₂, ∀ o', evaluate panels c'.1 c'.2 = some o' →
          o'.voltage ≤ mv → o'.current ≤ mc → o'.total_power ≤ o.total_power)) := by
  rcases foldl_consider_spec mv mc panels (candidates panels) (none, 0) with
    ⟨heq, hall⟩ | ⟨l₁, c₀, l₂, o, hsplit, heval, hv, hcc, hbest, hpow, hlt, hbefore, hafter⟩
  · refine Or.inl ⟨?_, hall⟩
    simp only [optimize]
    rw [heq]
  · refine Or.inr ⟨l₁, c₀, l₂, o, hsplit, heval, hv, hcc, hlt, ?_, hbefore, hafter⟩
    simp only [optimize]
    rw [hbest]

/-- The `max_power` limit does not influence the search: it only enters the final
`loss_power` subtraction. -/
theorem optimize_best_agnostic (panels : List Panel) (mv mc mp mp' : Int)
    (r : Optimized) (hr : optimize panels mv mc mp = some r) :
    optimize panels mv mc mp' =
      some ⟨r.voltage, r.current, r.num_series, r.num_parallel, r.method,
            mp' - r.voltage * r.current⟩ := by
  rcases hb : ((candidates panels).foldl (considerCandidate mv mc panels)
      (none, 0)).1 with _ | best
  · simp only [optimize] at hr
    rw [hb] at hr
    exact absurd hr (by simp)
  · simp only [optimize] at hr ⊢
    rw [hb] at hr ⊢
    injection hr with hr
    subst hr
    rfl

theorem series_panels_nonneg (l : List Panel)
    (hnn : ∀ p ∈ l, 0 ≤ p.voltage ∧ 0 ≤ p.current) (m : MergedPanel)
    (hm : series_panels l = some m) : 0 ≤ m.voltage ∧ 0 ≤ m.current := by
  cases l with
  | nil => simp [series_panels] at hm
  | cons p ps =>
    simp only [series_panels, Option.some.injEq] at hm
    subst hm
    constructor
    · exact List.sum_nonneg
        (by
          intro x hx
          rcases List.mem_map.mp hx with ⟨q, hq, hqx⟩
          exact hqx ▸ (hnn q hq).1)
    · exact (hnn p (List.mem_cons_self p ps)).2

theorem parallel_panels_nonneg (l : List Panel)
    (hnn : ∀ p ∈ l, 0 ≤ p.voltage ∧ 0 ≤ p.current) (m : MergedPanel)
    (hm : parallel_panels l = some m) : 0 ≤ m.voltage ∧ 0 ≤ m.current := by
  cases l with
  | nil => simp [parallel_panels] at hm
  | cons p ps =>
    simp only [parallel_panels, Option.some.injEq] at hm
    subst hm
    constructor
    · exact (hnn p (List.mem_cons_self p ps)).1
    · exact List.sum_nonneg
        (by
          intro x hx
          rcases List.mem_map.mp hx with ⟨q, hq, hqx⟩
          exact hqx ▸ (hnn q hq).2)

theorem mapOpt_cons_inv {α β : Type} (f : α → Option β) (a : α) (l : List α)
    (l' : List β) (h : mapOpt f (a :: l) = some l') :
    ∃ b bs, l' = b :: bs ∧ f a = some b ∧ mapOpt f l = some bs := by
  rcases ha : f a with _ | b
  · simp [mapOpt, ha] at h
  · rcases hl : mapOpt f l with _ | bs
    · simp [mapOpt, ha, hl] at h
    · simp only [mapOpt, ha, hl, Option.some.injEq] at h
      exact ⟨b, bs, h.symm, rfl, rfl⟩

/-- With non-negative panels, every candidate Output dominates the first
panel componentwise: the first panel heads the first group, so its voltage
and current both survive (only ever added to) through both merge levels. -/
theorem evaluate_head_le (p : Panel) (rest : List Panel) (c : Nat) (hc : c ≠ 0)
    (m : MergeMethod)
    (hnn : ∀ q ∈ p :: rest, 0 ≤ q.voltage ∧ 0 ≤ q.current) (o : Output)
    (ho : evaluate (p :: rest) c m = some o) :
    p.voltage ≤ o.voltage ∧ p.current ≤ o.current := by
  have hP : (p :: rest) ≠ [] := List.cons_ne_nil p rest
  have hchunk : chunkList (p :: rest) c =
      (p :: rest).take c :: chunkList ((p :: rest).drop c) c :=
    chunkList_cons _ c hP hc
  have htake : (p :: rest).take c = p :: rest.take (c - 1) := by
    rcases c with _ | c'
    · omega
    · simp [List.take_succ_cons]
  have hrestnn : ∀ q ∈ rest.take (c - 1), 0 ≤ q.voltage ∧ 0 ≤ q.current :=
    fun q hq => hnn q (List.mem_cons_of_mem p (List.mem_of_mem_take hq))
  have htailnn : ∀ g ∈ chunkList ((p :: rest).drop c) c,
      ∀ q ∈ g, 0 ≤ q.voltage ∧ 0 ≤ q.current := by
    intro g hg q hq
    exact hnn q (List.mem_of_mem_drop
      ((chunkList_forall c hc ((p :: rest).drop c) g hg).2.2 q hq))
  cases m with
  | series_first =>
    rcases evaluate_series_spec (p :: rest) c hP hc with
      ⟨series, result, hs, hlen, hr, heval⟩
    rw [heval] at ho
    injection ho with ho
    subst ho
    rw [hchunk, htake] at hs
    rcases mapOpt_cons_inv _ _ _ _ hs with ⟨m0, ms, hser, hm0, hms⟩
    subst hser
    simp only [series_panels, Option.some.injEq] at hm0
    subst hm0
    simp only [parallel_panels, Option.some.injEq] at hr
    subst hr
    constructor
    · show p.voltage ≤ ((p :: rest.take (c - 1)).map Panel.voltage).sum
      rw [List.map_cons, List.sum_cons]
      have : 0 ≤ ((rest.take (c - 1)).map Panel.voltage).sum :=
        List.sum_nonneg (by
          intro x hx
          rcases List.mem_map.mp hx with ⟨q, hq, hqx⟩
          exact hqx ▸ (hrestnn q hq).1)
      omega
    · show p.current ≤ p.current + (ms.map Panel.current).sum
      have : 0 ≤ (ms.map Panel.current).sum :=
        List.sum_nonneg (by
          intro x hx
          rcases List.mem_map.mp hx with ⟨q, hq, hqx⟩
          rcases forall₂_mem_right ((mapOpt_eq_some_iff _ _ _).mp hms) q hq with
            ⟨g, hg, hgq⟩
          exact hqx ▸ (series_panels_nonneg g (htailnn g hg) q hgq).2)
      omega
  | parallel_first =>
    rcases evaluate_parallel_spec (p :: rest) c hP hc with
      ⟨parallels, result, hs, hlen, hr, heval⟩
    rw [heval] at ho
    injection ho with ho
    subst ho
    rw [hchunk, htake] at hs
    rcases mapOpt_cons_inv _ _ _ _ hs with ⟨m0, ms, hser, hm0, hms⟩
    subst hser
    simp only [parallel_panels, Option.some.injEq] at hm0
    subst hm0
    simp only [series_panels, Option.some.injEq] at hr
    subst hr
    constructor
    · show p.voltage ≤ p.voltage + (ms.map Panel.voltage).sum
      have : 0 ≤ (ms.map Panel.voltage).sum :=
        List.sum_nonneg (by
          intro x hx
          rcases List.mem_map.mp hx with ⟨q, hq, hqx⟩
          rcases forall₂_mem_right ((mapOpt_eq_some_iff _ _ _).mp hms) q hq with
            ⟨g, hg, hgq⟩
          exact hqx ▸ (parallel_panels_nonneg g (htailnn g hg) q hgq).1)
      omega
    · show p.current ≤ ((p :: rest.take (c - 1)).map Panel.current).sum
      rw [List.map_cons, List.sum_cons]
      have : 0 ≤ ((rest.take (c - 1)).map Panel.current).sum :=
        List.sum_nonneg (by
          intro x hx
          rcases List.mem_map.mp hx with ⟨q, hq, hqx⟩
          exact hqx ▸ (hrestnn q hq).2)
      omega

/-! ## Claim theorems -/

/-- C5: on a non-empty ordered panel sequence, `series_panels` returns a panel
whose voltage is the sum of all input voltages and whose current is the first
panel's current, and `parallel_panels` returns a panel whose current is the
sum of all input currents and whose voltage is the first panel's voltage; in
particular on `k ≥ 1` identical panels `(v, i)` they return `(k*v, i)` and
`(v, k*i)` respectively. -/
theorem series_parallel_merge_laws (p : Panel) (ps : List Panel) (k : Nat)
    (hk : 1 ≤ k) (v i : Int) :
    series_panels (p :: ps) =
      some ⟨((p :: ps).map Panel.voltage).sum, p.current⟩ ∧
    parallel_panels (p :: ps) =
      some ⟨p.voltage, ((p :: ps).map Panel.current).sum⟩ ∧
    series_panels (List.replicate k ⟨v, i⟩) = some ⟨k * v, i⟩ ∧
    parallel_panels (List.replicate k ⟨v, i⟩) = some ⟨v, k * i⟩ := by
  have hrep : List.replicate k (⟨v, i⟩ : Panel) =
      ⟨v, i⟩ :: List.replicate (k - 1) ⟨v, i⟩ := by
    rcases k with _ | j
    · omega
    · simp [List.replicate_succ]
  have hcast : ((k - 1 : Nat) : Int) = (k : Int) - 1 := by
    rw [Nat.cast_sub hk]
    simp
  refine ⟨rfl, rfl, ?_, ?_⟩
  · rw [hrep]
    simp only [series_panels, List.map_cons, List.map_replicate,
      List.sum_cons, List.sum_replicate, nsmul_eq_mul, Option.some.injEq,
      Panel.mk.injEq]
    exact ⟨by rw [hcast]; ring, trivial⟩
  · rw [hrep]
    simp only [parallel_panels, List.map_cons, List.map_replicate,
      List.sum_cons, List.sum_replicate, nsmul_eq_mul, Option.some.injEq,
      Panel.mk.injEq]
    exact ⟨trivial, by rw [hcast]; ring⟩

/-- Witness for C5 at `p = (2, 3)`, `ps = [(5, 7)]`, `k = 3`, `(v, i) = (4, 6)`. -/
theorem series_parallel_merge_laws_witness :
    (1 ≤ 3) ∧
    (series_panels [⟨2, 3⟩, ⟨5, 7⟩] =
        some ⟨(([⟨2, 3⟩, ⟨5, 7⟩] : List Panel).map Panel.voltage).sum, 3⟩ ∧
      parallel_panels [⟨2, 3⟩, ⟨5, 7⟩] =
        some ⟨2, (([⟨2, 3⟩, ⟨5, 7⟩] : List Panel).map Panel.current).sum⟩ ∧
      series_panels (List.replicate 3 ⟨4, 6⟩) = some ⟨3 * 4, 6⟩ ∧
      parallel_panels (List.replicate 3 ⟨4, 6⟩) = some ⟨4, 3 * 6⟩) :=
  ⟨by decide, series_parallel_merge_laws ⟨2, 3⟩ [⟨5, 7⟩] 3 (by decide) 4 6⟩

/-- C6: for a non-empty panel sequence and a positive chunk size,
`group_panels` succeeds and returns consecutive groups that concatenate back
to the input, whose lengths sum to the input length, with no empty group,
every group of size at most `chunk_size`, every group except possibly the
last of size exactly `chunk_size`, and a single all-panel group as soon as
`chunk_size ≥ len(panels)`. -/
theorem group_panels_partition (P : List Panel) (c : Nat) (hc : 1 ≤ c)
    (hP : P ≠ []) :
    ∃ gs, group_panels P c = some gs ∧
      gs.flatten = P ∧
      (gs.map List.length).sum = P.length ∧
      (∀ g ∈ gs, g ≠ []) ∧
      (∀ g ∈ gs, g.length ≤ c) ∧
      (∀ g ∈ gs.dropLast, g.length = c) ∧
      (P.length ≤ c → gs = [P]) := by
  have hc0 : c ≠ 0 := by omega
  refine ⟨chunkList P c, by simp [group_panels, hc0], chunkList_flatten c hc0 P,
    ?_, fun g hg => (chunkList_forall c hc0 P g hg).1,
    fun g hg => (chunkList_forall c hc0 P g hg).2.1,
    chunkList_dropLast_length c hc0 P,
    fun hle => chunkList_of_le P c hP hc0 hle⟩
  rw [← List.length_flatten, chunkList_flatten c hc0 P]

/-- Witness for C6 at `P` of length 5 and `c = 2`. -/
theorem group_panels_partition_witness :
    (1 ≤ 2) ∧ (([⟨1, 1⟩, ⟨2, 2⟩, ⟨3, 3⟩, ⟨4, 4⟩, ⟨5, 5⟩] : List Panel) ≠ []) ∧
    (∃ gs, group_panels [⟨1, 1⟩, ⟨2, 2⟩, ⟨3, 3⟩, ⟨4, 4⟩, ⟨5, 5⟩] 2 = some gs ∧
      gs.flatten = [⟨1, 1⟩, ⟨2, 2⟩, ⟨3, 3⟩, ⟨4, 4⟩, ⟨5, 5⟩] ∧
      (gs.map List.length).sum =
        ([⟨1, 1⟩, ⟨2, 2⟩, ⟨3, 3⟩, ⟨4, 4⟩, ⟨5, 5⟩] : List Panel).length ∧
      (∀ g ∈ gs, g ≠ []) ∧
      (∀ g ∈ gs, g.length ≤ 2) ∧
      (∀ g ∈ gs.dropLast, g.length = 2) ∧
      (([⟨1, 1⟩, ⟨2, 2⟩, ⟨3, 3⟩, ⟨4, 4⟩, ⟨5, 5⟩] : List Panel).length ≤ 2 →
        gs = [[⟨1, 1⟩, ⟨2, 2⟩, ⟨3, 3⟩, ⟨4, 4⟩, ⟨5, 5⟩]])) :=
  ⟨by decide, by decide,
    group_panels_partition [⟨1, 1⟩, ⟨2, 2⟩, ⟨3, 3⟩, ⟨4, 4⟩, ⟨5, 5⟩] 2
      (by decide) (by decide)⟩

/-- C9: for every non-empty panel sequence, chunk size in `[1, len(panels)]`
and either method, `evaluate` is total: the grouping succeeds with only
non-empty groups (so the first-element access in the merge operators never
fails) and an Output candidate is always produced — no feasibility filtering
happens inside `evaluate`. -/
theorem evaluate_total (panels : List Panel) (c : Nat) (m : MergeMethod)
    (hP : panels ≠ []) (hc1 : 1 ≤ c) (hc2 : c ≤ panels.length) :
    (∃ gs, group_panels panels c = some gs ∧ ∀ g ∈ gs, g ≠ []) ∧
    (∃ o, evaluate panels c m = some o) := by
  have hc0 : c ≠ 0 := by omega
  exact ⟨⟨chunkList panels c, by simp [group_panels, hc0],
      fun g hg => (chunkList_forall c hc0 panels g hg).1⟩,
    evaluate_isSome panels c m hP hc0⟩

/-- Witness for C9 at three panels, chunk size 2, `parallel_first`. -/
theorem evaluate_total_witness :
    (([⟨1, 2⟩, ⟨3, 4⟩, ⟨5, 6⟩] : List Panel) ≠ []) ∧ (1 ≤ 2) ∧
    (2 ≤ ([⟨1, 2⟩, ⟨3, 4⟩, ⟨5, 6⟩] : List Panel).length) ∧
    ((∃ gs, group_panels [⟨1, 2⟩, ⟨3, 4⟩, ⟨5, 6⟩] 2 = some gs ∧
        ∀ g ∈ gs, g ≠ []) ∧
      (∃ o, evaluate [⟨1, 2⟩, ⟨3, 4⟩, ⟨5, 6⟩] 2 .parallel_first = some o)) :=
  ⟨by decide, by decide, by decide,
    evaluate_total [⟨1, 2⟩, ⟨3, 4⟩, ⟨5, 6⟩] 2 .parallel_first (by decide)
      (by decide) (by decide)⟩

/-- C8: when the chunk size divides the panel count evenly, the Output of
`evaluate` satisfies `num_series * num_parallel = len(panels)` for both
methods. -/
theorem evaluate_counts_multiply (panels : List Panel) (c : Nat)
    (hP : panels ≠ []) (hc1 : 1 ≤ c) (hc2 : c ≤ panels.length)
    (hdvd : c ∣ panels.length) (m : MergeMethod) :
    ∃ o, evaluate panels c m = some o ∧
      o.num_series * o.num_parallel = panels.length := by
  have hc0 : c ≠ 0 := by omega
  rcases hdvd with ⟨k, hk⟩
  have hg : (chunkList panels c).length = k := chunkList_length_dvd c hc0 k panels hk
  cases m with
  | series_first =>
    rcases evaluate_series_spec panels c hP hc0 with
      ⟨series, result, hs, hlen, hr, heval⟩
    refine ⟨_, heval, ?_⟩
    show c * series.length = panels.length
    rw [hlen, hg, hk]
  | parallel_first =>
    rcases evaluate_parallel_spec panels c hP hc0 with
      ⟨parallels, result, hs, hlen, hr, heval⟩
    refine ⟨_, heval, ?_⟩
    show parallels.length * c = panels.length
    rw [hlen, hg, hk, Nat.mul_comm]

/-- Witness for C8 at six panels, chunk size 3, `series_first`. -/
theorem evaluate_counts_multiply_witness :
    ((List.replicate 6 (⟨18, 8⟩ : Panel)) ≠ []) ∧ (1 ≤ 3) ∧
    (3 ≤ (List.replicate 6 (⟨18, 8⟩ : Panel)).length) ∧
    (3 ∣ (List.replicate 6 (⟨18, 8⟩ : Panel)).length) ∧
    (∃ o, evaluate (List.replicate 6 ⟨18, 8⟩) 3 .series_first = some o ∧
      o.num_series * o.num_parallel = (List.replicate 6 (⟨18, 8⟩ : Panel)).length) :=
  ⟨by decide, by decide, by decide, by decide,
    evaluate_counts_multiply (List.replicate 6 ⟨18, 8⟩) 3 (by decide) (by decide)
      (by decide) (by decide) .series_first⟩

/-- C7: on 6 identical `(18V, 8A)` panels with limits `(50V, 30A, 500W)`,
`optimize` returns the `series_first`, chunk-size-2 configuration
`(num_series = 2, num_parallel = 3)` at `(36V, 24A)`, `total_power 864`,
with the negative `loss_power = 500 - 864 = -364` reported verbatim. -/
theorem optimize_example_six_panels :
    optimize (List.replicate 6 ⟨18, 8⟩) 50 30 500 =
      some ⟨36, 24, 2, 3, .series_first, -364⟩ ∧
    Optimized.total_power ⟨36, 24, 2, 3, .series_first, -364⟩ = 864 ∧
    (-364 : Int) = 500 - 864 := by
  refine ⟨by decide, by decide, by decide⟩

/-- C10: whenever `optimize` returns an Optimized record, its `total_power`
is strictly positive — the best-so-far power starts at 0 and the comparison
is strict, so a feasible candidate of zero (or negative) power is never
selected; if every feasible candidate has power at most 0 the result is the
absent signal. -/
theorem optimize_positive_power (panels : List Panel) (mv mc mp : Int) :
    (∀ r, optimize panels mv mc mp = some r → 0 < Optimized.total_power r) ∧
    ((∀ c ∈ candidates panels, ∀ o, evaluate panels c.1 c.2 = some o →
        o.voltage ≤ mv → o.current ≤ mc → o.total_power ≤ 0) →
      optimize panels mv mc mp = none) := by
  constructor
  · intro r hr
    rcases optimize_cases panels mv mc mp with
      ⟨hn, _⟩ | ⟨l₁, c₀, l₂, o, _, _, _, _, hpos, hopt, _, _⟩
    · rw [hn] at hr
      exact absurd hr (by simp)
    · rw [hopt] at hr
      injection hr with hr
      subst hr
      exact hpos
  · intro hall
    rcases optimize_cases panels mv mc mp with
      ⟨hn, _⟩ | ⟨l₁, c₀, l₂, o, hsplit, heval, hv, hcc, hpos, _, _, _⟩
    · exact hn
    · exfalso
      have hmem : c₀ ∈ candidates panels := by
        rw [hsplit]
        exact List.mem_append_right _ (List.mem_cons_self _ _)
      have := hall c₀ hmem o heval hv hcc
      omega

/-- Witness for C10: panels `[(1, 1)]` with limits `(1, 1, 1)` give a record
of positive power; the all-zero single panel admits a feasible zero-power
candidate only, so the result is `none`. -/
theorem optimize_positive_power_witness :
    (0 : Int) < Optimized.total_power ⟨1, 1, 1, 1, .series_first, 0⟩ ∧
    optimize [⟨0, 0⟩] 1 1 1 = none :=
  ⟨(optimize_positive_power [⟨1, 1⟩] 1 1 1).1 ⟨1, 1, 1, 1, .series_first, 0⟩
      (by decide),
    (optimize_positive_power [⟨0, 0⟩] 1 1 1).2 (by
      intro c hc o he hv hcc
      fin_cases hc
      · rw [(rfl : evaluate [(⟨0, 0⟩ : Panel)] 1 MergeMethod.series_first =
            some ⟨0, 0, 1, 1, .series_first⟩)] at he
        injection he with he
        subst he
        decide
      · rw [(rfl : evaluate [(⟨0, 0⟩ : Panel)] 1 MergeMethod.parallel_first =
            some ⟨0, 0, 1, 1, .parallel_first⟩)] at he
        injection he with he
        subst he
        decide)⟩

/-- C1: whenever `optimize` returns a record under positive limits on a
non-empty panel sequence, that record respects the voltage and current caps,
its total power dominates every feasible candidate enumerated over chunk
sizes `1..len(panels)` crossed with both methods, and `max_power` plays no
role in which candidate is selected (it only shifts `loss_power`). -/
theorem optimize_feasible_and_maximal (panels : List Panel)
    (max_voltage max_current max_power : Int) (hne : panels ≠ [])
    (hmv : 0 < max_voltage) (hmc : 0 < max_current) (hmp : 0 < max_power)
    (r : Optimized)
    (hr : optimize panels max_voltage max_current max_power = some r) :
    r.voltage ≤ max_voltage ∧ r.current ≤ max_current ∧
    (∀ k : Nat, 1 ≤ k → k ≤ panels.length → ∀ (m : MergeMethod) (o : Output),
      evaluate panels k m = some o → o.voltage ≤ max_voltage →
      o.current ≤ max_current → o.total_power ≤ Optimized.total_power r) ∧
    (∀ mp' : Int, ∃ r' : Optimized,
      optimize panels max_voltage max_current mp' = some r' ∧
      r'.voltage = r.voltage ∧ r'.current = r.current ∧
      r'.num_series = r.num_series ∧ r'.num_parallel = r.num_parallel ∧
      r'.method = r.method) := by
  rcases optimize_cases panels max_voltage max_current max_power with
    ⟨hn, _⟩ | ⟨l₁, c₀, l₂, o, hsplit, heval, hv, hcc, hpos, hopt, hbefore, hafter⟩
  · rw [hn] at hr
    exact absurd hr (by simp)
  · have hropt := hr
    rw [hopt] at hr
    injection hr with hr
    subst hr
    refine ⟨hv, hcc, ?_, ?_⟩
    · intro k hk1 hk2 m o' he' hv' hc'
      have hmem : (k, m) ∈ candidates panels :=
        (mem_candidates panels k m).mpr ⟨hk1, hk2⟩
      rw [hsplit] at hmem
      have hgoal : o'.total_power ≤ o.total_power := by
        rcases List.mem_append.mp hmem with h1 | h2
        · exact le_of_lt (hbefore (k, m) h1 o' he' hv' hc')
        · rcases List.mem_cons.mp h2 with h | h
          · rw [← h] at heval
            rw [heval] at he'
            injection he' with he'
            subst he'
            exact le_rfl
          · exact hafter (k, m) h o' he' hv' hc'
      exact hgoal
    · intro mp'
      exact ⟨_, optimize_best_agnostic panels max_voltage max_current
        max_power mp' _ hropt, rfl, rfl, rfl, rfl, rfl⟩

/-- Witness for C1 at a single `(1, 1)` panel with limits `(1, 1, 1)`. -/
theorem optimize_feasible_and_maximal_witness :
    (([⟨1, 1⟩] : List Panel) ≠ []) ∧ ((0 : Int) < 1) ∧
    (optimize [⟨1, 1⟩] 1 1 1 = some ⟨1, 1, 1, 1, .series_first, 0⟩) ∧
    ((⟨1, 1, 1, 1, .series_first, 0⟩ : Optimized).voltage ≤ 1 ∧
      (⟨1, 1, 1, 1, .series_first, 0⟩ : Optimized).current ≤ 1 ∧
      (∀ k : Nat, 1 ≤ k → k ≤ ([⟨1, 1⟩] : List Panel).length →
        ∀ (m : MergeMethod) (o : Output),
        evaluate [⟨1, 1⟩] k m = some o → o.voltage ≤ 1 → o.current ≤ 1 →
        o.total_power ≤
          Optimized.total_power ⟨1, 1, 1, 1, .series_first, 0⟩) ∧
      (∀ mp' : Int, ∃ r' : Optimized,
        optimize [⟨1, 1⟩] 1 1 mp' = some r' ∧
        r'.voltage = (⟨1, 1, 1, 1, .series_first, 0⟩ : Optimized).voltage ∧
        r'.current = (⟨1, 1, 1, 1, .series_first, 0⟩ : Optimized).current ∧
        r'.num_series = (⟨1, 1, 1, 1, .series_first, 0⟩ : Optimized).num_series ∧
        r'.num_parallel =
          (⟨1, 1, 1, 1, .series_first, 0⟩ : Optimized).num_parallel ∧
        r'.method = (⟨1, 1, 1, 1, .series_first, 0⟩ : Optimized).method)) :=
  ⟨by decide, by decide, by decide,
    optimize_feasible_and_maximal [⟨1, 1⟩] 1 1 1 (by decide) (by decide)
      (by decide) (by decide) ⟨1, 1, 1, 1, .series_first, 0⟩ (by decide)⟩

/-- C2: the winning candidate is the first one, in enumeration order
(chunk size ascending, `series_first` before `parallel_first`), to attain the
maximal feasible power: every feasible candidate enumerated strictly before
it has strictly smaller power, and every feasible candidate enumerated after
it has power at most the winner's — so a later candidate with equal power
never replaces the winner (the comparison is strict). -/
theorem optimize_first_max_wins (panels : List Panel) (mv mc mp : Int)
    (r : Optimized) (hr : optimize panels mv mc mp = some r) :
    ∃ l₁ c l₂ o, candidates panels = l₁ ++ c :: l₂ ∧
      evaluate panels c.1 c.2 = some o ∧
      o.voltage ≤ mv ∧ o.current ≤ mc ∧
      r.voltage = o.voltage ∧ r.current = o.current ∧
      r.num_series = o.num_series ∧ r.num_parallel = o.num_parallel ∧
      r.method = o.method ∧
      (∀ c' ∈ l₁, ∀ o', evaluate panels c'.1 c'.2 = some o' →
        o'.voltage ≤ mv → o'.current ≤ mc →
        o'.total_power < o.total_power) ∧
      (∀ c' ∈ l₂, ∀ o', evaluate panels c'.1 c'.2 = some o' →
        o'.voltage ≤ mv → o'.current ≤ mc →
        o'.total_power ≤ o.total_power) := by
  rcases optimize_cases panels mv mc mp with
    ⟨hn, _⟩ | ⟨l₁, c₀, l₂, o, hsplit, heval, hv, hcc, hpos, hopt, hbefore, hafter⟩
  · rw [hn] at hr
    exact absurd hr (by simp)
  · rw [hopt] at hr
    injection hr with hr
    subst hr
    exact ⟨l₁, c₀, l₂, o, hsplit, heval, hv, hcc, rfl, rfl, rfl, rfl, rfl,
      hbefore, hafter⟩

/-- Witness for C2 at two identical `(1, 1)` panels with limits `(10, 10, 2)`:
all four candidates are feasible with equal power 2, and the first one,
`(chunk_size 1, series_first)`, wins. -/
theorem optimize_first_max_wins_witness :
    (optimize [⟨1, 1⟩, ⟨1, 1⟩] 10 10 2 =
      some ⟨1, 2, 1, 2, .series_first, 0⟩) ∧
    (∃ l₁ c l₂ o,
      candidates [⟨1, 1⟩, ⟨1, 1⟩] = l₁ ++ c :: l₂ ∧
      evaluate [⟨1, 1⟩, ⟨1, 1⟩] c.1 c.2 = some o ∧
      o.voltage ≤ 10 ∧ o.current ≤ 10 ∧
      (⟨1, 2, 1, 2, .series_first, 0⟩ : Optimized).voltage = o.voltage ∧
      (⟨1, 2, 1, 2, .series_first, 0⟩ : Optimized).current = o.current ∧
      (⟨1, 2, 1, 2, .series_first, 0⟩ : Optimized).num_series = o.num_series ∧
      (⟨1, 2, 1, 2, .series_first, 0⟩ : Optimized).num_parallel = o.num_parallel ∧
      (⟨1, 2, 1, 2, .series_first, 0⟩ : Optimized).method = o.method ∧
      (∀ c' ∈ l₁, ∀ o', evaluate [⟨1, 1⟩, ⟨1, 1⟩] c'.1 c'.2 = some o' →
        o'.voltage ≤ 10 → o'.current ≤ 10 →
        o'.total_power < o.total_power) ∧
      (∀ c' ∈ l₂, ∀ o', evaluate [⟨1, 1⟩, ⟨1, 1⟩] c'.1 c'.2 = some o' →
        o'.voltage ≤ 10 → o'.current ≤ 10 →
        o'.total_power ≤ o.total_power)) :=
  ⟨by decide,
    optimize_first_max_wins [⟨1, 1⟩, ⟨1, 1⟩] 10 10 2
      ⟨1, 2, 1, 2, .series_first, 0⟩ (by decide)⟩

/-- C3 as stated is false: for the single all-zero panel (non-negative
voltage and current) with positive limits `(1, 1, 1)`, the `series_first`
chunk-size-1 candidate is feasible, yet `optimize` returns `none` — the
feasible candidate's power 0 never beats the initial best power 0 because
the comparison is strict. -/
theorem optimize_zero_panel_counterexample :
    (([⟨0, 0⟩] : List Panel) ≠ []) ∧
    (∀ p ∈ ([⟨0, 0⟩] : List Panel), 0 ≤ p.voltage ∧ 0 ≤ p.current) ∧
    ((0 : Int) < 1) ∧
    (∃ o, evaluate [⟨0, 0⟩] 1 .series_first = some o ∧
      o.voltage ≤ 1 ∧ o.current ≤ 1) ∧
    optimize [⟨0, 0⟩] 1 1 1 = none := by
  refine ⟨by decide, by decide, by decide,
    ⟨⟨0, 0, 1, 1, .series_first⟩, by decide, by decide, by decide⟩, by decide⟩

/-- C3 (amended: panels with strictly positive voltage and current instead
of merely non-negative): on a non-empty sequence of positive panels with
positive limits, if some enumerated candidate is feasible then `optimize`
returns a record — not the absent signal — whose `loss_power` is
`max_power` minus the winning candidate's `total_power` and whose voltage,
current, `num_series`, `num_parallel` and `method` are carried over from the
winning Output. -/
theorem optimize_some_of_feasible (panels : List Panel) (mv mc mp : Int)
    (hne : panels ≠ [])
    (hpos : ∀ p ∈ panels, 0 < p.voltage ∧ 0 < p.current)
    (hmv : 0 < mv) (hmc : 0 < mc) (hmp : 0 < mp)
    (k : Nat) (m : MergeMethod) (o : Output)
    (hk1 : 1 ≤ k) (hk2 : k ≤ panels.length)
    (ho : evaluate panels k m = some o) (hfv : o.voltage ≤ mv)
    (hfc : o.current ≤ mc) :
    ∃ (r : Optimized) (b : Output) (k' : Nat) (m' : MergeMethod),
      optimize panels mv mc mp = some r ∧
      1 ≤ k' ∧ k' ≤ panels.length ∧ evaluate panels k' m' = some b ∧
      b.voltage ≤ mv ∧ b.current ≤ mc ∧
      r.voltage = b.voltage ∧ r.current = b.current ∧
      r.num_series = b.num_series ∧ r.num_parallel = b.num_parallel ∧
      r.method = b.method ∧ r.loss_power = mp - b.total_power := by
  rcases optimize_cases panels mv mc mp with
    ⟨hn, hall⟩ | ⟨l₁, c₀, l₂, b, hsplit, heval, hv, hcc, hbpos, hopt, _, _⟩
  · exfalso
    have hmem : (k, m) ∈ candidates panels :=
      (mem_candidates panels k m).mpr ⟨hk1, hk2⟩
    have hle := hall (k, m) hmem o ho hfv hfc
    have hopos := evaluate_pos panels k m hne (by omega) hpos o ho
    have : 0 < o.total_power := mul_pos hopos.1 hopos.2
    omega
  · have hmem : c₀ ∈ candidates panels := by
      rw [hsplit]
      exact List.mem_append_right _ (List.mem_cons_self _ _)
    obtain ⟨k', m'⟩ := c₀
    have hk' := (mem_candidates panels k' m').mp hmem
    exact ⟨_, b, k', m', hopt, hk'.1, hk'.2, heval, hv, hcc,
      rfl, rfl, rfl, rfl, rfl, rfl⟩

/-- Witness for the amended C3 at a single `(1, 1)` panel with limits
`(1, 1, 1)` and the feasible candidate `(chunk_size 1, series_first)`. -/
theorem optimize_some_of_feasible_witness :
    (([⟨1, 1⟩] : List Panel) ≠ []) ∧
    (∀ p ∈ ([⟨1, 1⟩] : List Panel), 0 < p.voltage ∧ 0 < p.current) ∧
    ((0 : Int) < 1) ∧ (1 ≤ 1) ∧ (1 ≤ ([⟨1, 1⟩] : List Panel).length) ∧
    (evaluate [⟨1, 1⟩] 1 .series_first = some ⟨1, 1, 1, 1, .series_first⟩) ∧
    ((⟨1, 1, 1, 1, .series_first⟩ : Output).voltage ≤ 1) ∧
    ((⟨1, 1, 1, 1, .series_first⟩ : Output).current ≤ 1) ∧
    (∃ (r : Optimized) (b : Output) (k' : Nat) (m' : MergeMethod),
      optimize [⟨1, 1⟩] 1 1 1 = some r ∧
      1 ≤ k' ∧ k' ≤ ([⟨1, 1⟩] : List Panel).length ∧
      evaluate [⟨1, 1⟩] k' m' = some b ∧
      b.voltage ≤ 1 ∧ b.current ≤ 1 ∧
      r.voltage = b.voltage ∧ r.current = b.current ∧
      r.num_series = b.num_series ∧ r.num_parallel = b.num_parallel ∧
      r.method = b.method ∧ r.loss_power = 1 - b.total_power) :=
  ⟨by decide, by decide, by decide, by decide, by decide, by decide, by decide,
    by decide,
    optimize_some_of_feasible [⟨1, 1⟩] 1 1 1 (by decide) (by decide) (by decide)
      (by decide) (by decide) 1 .series_first ⟨1, 1, 1, 1, .series_first⟩
      (by decide) (by decide) (by decide) (by decide) (by decide)⟩

/-- C4: if no enumerated candidate satisfies both caps, `optimize` returns
the absent signal (`none`) rather than raising; in particular with
`max_voltage = 1`, `max_current = 1` and every panel having voltage or
current greater than 1, the result is the absent signal — panels here range
over the data model's Panel domain, whose voltage and current are
non-negative. -/
theorem optimize_none_of_infeasible (panels : List Panel) (mv mc mp : Int)
    (hP : panels ≠ []) :
    ((∀ k : Nat, 1 ≤ k → k ≤ panels.length → ∀ (m : MergeMethod) (o : Output),
        evaluate panels k m = some o →
        ¬(o.voltage ≤ mv ∧ o.current ≤ mc)) →
      optimize panels mv mc mp = none) ∧
    ((∀ p ∈ panels, 0 ≤ p.voltage ∧ 0 ≤ p.current) →
      (∀ p ∈ panels, 1 < p.voltage ∨ 1 < p.current) →
      optimize panels 1 1 mp = none) := by
  have hmain : ∀ mv' mc' : Int,
      (∀ k : Nat, 1 ≤ k → k ≤ panels.length → ∀ (m : MergeMethod) (o : Output),
        evaluate panels k m = some o →
        ¬(o.voltage ≤ mv' ∧ o.current ≤ mc')) →
      optimize panels mv' mc' mp = none := by
    intro mv' mc' hinf
    rcases optimize_cases panels mv' mc' mp with
      ⟨hn, _⟩ | ⟨l₁, c₀, l₂, o, hsplit, heval, hv, hcc, _, _, _, _⟩
    · exact hn
    · exfalso
      have hmem : c₀ ∈ candidates panels := by
        rw [hsplit]
        exact List.mem_append_right _ (List.mem_cons_self _ _)
      obtain ⟨k, m⟩ := c₀
      have hk := (mem_candidates panels k m).mp hmem
      exact hinf k hk.1 hk.2 m o heval ⟨hv, hcc⟩
  refine ⟨hmain mv mc, ?_⟩
  intro hnn hgt
  apply hmain 1 1
  intro k hk1 hk2 m o heval hfeas
  obtain ⟨hfv, hfc⟩ := hfeas
  cases panels with
  | nil => exact hP rfl
  | cons p rest =>
    have hhead := evaluate_head_le p rest k (by omega) m hnn o heval
    obtain ⟨hh1, hh2⟩ := hhead
    rcases hgt p (List.mem_cons_self p rest) with h | h
    · omega
    · omega

/-- Witness for C4 at the single panel `(2, 2)` with caps `(1, 1)`: both the
general infeasibility premise and the concrete `> 1` premise hold, and
`optimize` returns `none`. -/
theorem optimize_none_of_infeasible_witness :
    (([⟨2, 2⟩] : List Panel) ≠ []) ∧ (optimize [⟨2, 2⟩] 1 1 5 = none) ∧
    (optimize [⟨2, 2⟩] 1 1 7 = none) :=
  ⟨by decide,
    (optimize_none_of_infeasible [⟨2, 2⟩] 1 1 5 (by decide)).1 (by
      intro k hk1 hk2 m o he
      simp only [List.length_cons, List.length_nil] at hk2
      have hk : k = 1 := by omega
      subst hk
      cases m
      · rw [(rfl : evaluate [(⟨2, 2⟩ : Panel)] 1 MergeMethod.series_first =
            some ⟨2, 2, 1, 1, .series_first⟩)] at he
        injection he with he
        subst he
        decide
      · rw [(rfl : evaluate [(⟨2, 2⟩ : Panel)] 1 MergeMethod.parallel_first =
            some ⟨2, 2, 1, 1, .parallel_first⟩)] at he
        injection he with he
        subst he
        decide),
    (optimize_none_of_infeasible [⟨2, 2⟩] 1 1 7 (by decide)).2 (by decide)
      (by decide)⟩
